import Mathlib

/-!
Verification of the faust actor runtime (`faust/actors.py`) and codec chain
(`faust/serializers/codecs.py`) against its natural-language specification.

The Python source is shallowly embedded: coroutine outcomes become an explicit
`Outcome` type, exception-raising code returns `Except`, object identity is
modelled by allocation counters, and side effects (messages sent, sink and
error-hook invocations) are returned as explicit traces.
-/

namespace Faust

/-! ## Actor-side values

`faust.actors` handles arbitrary Python values; the operations under scrutiny
only distinguish structured model records (which carry `_options.namespace`)
from everything else.  `AVal.vmodel ns p` stands for a `ModelT` instance whose
declared namespace is `ns`; the remaining constructors stand for plain values.
-/
inductive AVal : Type where
  | vnone : AVal
  | vstr (s : String) : AVal
  | vint (n : Int) : AVal
  | vmodel (ns : String) (payload : String) : AVal
  deriving DecidableEq, Repr

/-- `isinstance(value, ModelT)` together with the `value._options.namespace`
read: returns the declared namespace when the value is a structured record,
`none` otherwise. -/
def modelNamespace : AVal → Option String
  | .vmodel ns _ => some ns
  | _ => none

/-- `ReqRepRequest` record from `faust/actors.py`: namespace, value, reply_to,
correlation_id.  `ask` stores `None` in `namespace` for non-model values, so
the field is an `Option`. -/
structure ReqRepRequest : Type where
  ns : Option String
  value : AVal
  reply_to : String
  correlation_id : String
  deriving DecidableEq, Repr

/-- `ReqRepResponse` record from `faust/actors.py`: namespace, value,
correlation_id. -/
structure ReqRepResponse : Type where
  ns : String
  value : AVal
  correlation_id : String
  deriving DecidableEq, Repr

/-- `ReplyPromise`: value object pairing the asking actor with the pending
request.  Actors are identified by a numeric reference. -/
structure ReplyPromise : Type where
  actor : Nat
  req : ReqRepRequest
  deriving DecidableEq, Repr

/-- The payload of a message handed to the transport: either a plain value, a
request envelope, or a response envelope. -/
inductive MsgVal : Type where
  | plain (v : AVal) : MsgVal
  | request (r : ReqRepRequest) : MsgVal
  | response (r : ReqRepResponse) : MsgVal
  deriving DecidableEq, Repr

/-- One message published through the transport collaborator
(`topic.send` / `app.send`): destination topic name, key and value. -/
structure SentMessage : Type where
  dest : String
  key : Option AVal
  value : MsgVal
  deriving DecidableEq, Repr

/-- Python `correlation_id or str(uuid4())`: `or` takes the right operand when
the left one is `None` or the empty (falsy) string. -/
def pyOrStr (x : Option String) (dflt : String) : String :=
  match x with
  | none => dflt
  | some s => if s = "" then dflt else s

/-- `Actor.ask` (`faust/actors.py`): fill in the correlation id (generating a
fresh one when absent), build the `ReqRepRequest` envelope tagging the value's
namespace when it is a model, send it to the actor's own topic, and return a
`ReplyPromise` for this actor and that request.  `freshId` stands for the
`str(uuid4())` the call would generate; `selfActor` and `selfTopic` are the
actor's identity and bound topic name. -/
def Actor.ask (selfActor : Nat) (selfTopic : String) (freshId : String)
    (key : Option AVal) (value : AVal) (reply_to : String)
    (correlationId : Option String) : SentMessage × ReplyPromise :=
  let cid := pyOrStr correlationId freshId
  let req : ReqRepRequest := ⟨modelNamespace value, value, reply_to, cid⟩
  (⟨selfTopic, key, MsgVal.request req⟩, ⟨selfActor, req⟩)

/-- `Actor.reply` (`faust/actors.py`): send a `ReqRepResponse` to
`req.reply_to`, copying the correlation id from `req` and reading the
namespace from `value._options.namespace`.  Reading `_options` off a value
that is not a model raises `AttributeError`, modelled as `Except.error`. -/
def Actor.reply (key : Option AVal) (value : AVal) (req : ReqRepRequest) :
    Except Unit SentMessage :=
  match modelNamespace value with
  | some ns =>
      Except.ok ⟨req.reply_to, key, MsgVal.response ⟨ns, value, req.correlation_id⟩⟩
  | none => Except.error ()

/-! ## Task supervision (`Actor._execute_task`)

A task body either completes, is cancelled, or fails with an error (errors are
identified by a numeric code).  `_execute_task` wraps the body: cancellation is
re-raised untouched; any other error first triggers the configured error hook
(if any) and is then re-raised.  The result is the list of error-hook
invocations (hook reference, actor, error) paired with the final outcome. -/
inductive Outcome : Type where
  | ok : Outcome
  | cancelled : Outcome
  | failed (e : Nat) : Outcome
  deriving DecidableEq, Repr

/-- `Actor._execute_task` (`faust/actors.py`): await the wrapped coroutine;
re-raise `CancelledError` unchanged; for any other exception invoke
`self._on_error(self, exc)` when a hook is configured, then re-raise. -/
def executeTask (selfActor : Nat) (onError : Option Nat) (body : Outcome) :
    List (Nat × Nat × Nat) × Outcome :=
  match body with
  | .ok => ([], .ok)
  | .cancelled => ([], .cancelled)
  | .failed e =>
      match onError with
      | some h => ([(h, selfActor, e)], .failed e)
      | none => ([], .failed e)

/-! ## Actor state, memoized source and the service start loop -/

/-- An `asyncio.Task` handle: identity plus whether `cancel()` was called. -/
structure ATask : Type where
  id : Nat
  cancelled : Bool
  deriving DecidableEq, Repr

/-- `task.cancel()`. -/
def ATask.cancel (t : ATask) : ATask := ⟨t.id, true⟩

/-- A cancelled task delivers `CancelledError` into its body at the next
suspension point, so the supervision wrapper observes `cancelled` instead of
the body's own outcome. -/
def ATask.outcome (t : ATask) (body : Outcome) : Outcome :=
  if t.cancelled then .cancelled else body

/-- Mutable state of one `Actor` relevant to starting replicas: the declared
concurrency, the `cached_property` cell for `Actor.source`, and allocation
counters standing for object creation (`aiter(self.topic)` and
`asyncio.Task(...)`). -/
structure ActorState : Type where
  concurrency : Nat
  sourceCache : Option Nat
  nextSourceId : Nat
  nextTaskId : Nat
  deriving DecidableEq, Repr

/-- `Actor.source` (`faust/actors.py`, a `cached_property`): return the cached
source when present, otherwise create `aiter(self.topic)` once (allocating a
fresh object identity) and cache it. -/
def getSource (st : ActorState) : Nat × ActorState :=
  match st.sourceCache with
  | some s => (s, st)
  | none =>
      (st.nextSourceId,
        ⟨st.concurrency, some st.nextSourceId, st.nextSourceId + 1, st.nextTaskId⟩)

/-- One `ActorInstance` (`faust/actors.py`): replica index, the source object
its stream wraps, the owned task handle, and the futures registered with the
Service contract via `add_future`. -/
structure AInstance : Type where
  index : Option Nat
  source : Nat
  actor_task : Option ATask
  futures : List ATask
  deriving DecidableEq, Repr

/-- `Actor._start_task` (`faust/actors.py`): call the actor (which opens a
stream over the memoized source), wrap the result in a fresh `asyncio.Task`,
and bind the task and replica index onto the instance. -/
def startTask (i : Nat) (st : ActorState) : AInstance × ActorState :=
  let src := (getSource st).1
  let st1 := (getSource st).2
  (⟨some i, src, some ⟨st1.nextTaskId, false⟩, []⟩,
    ⟨st1.concurrency, st1.sourceCache, st1.nextSourceId, st1.nextTaskId + 1⟩)

/-- `ActorInstance.on_start` (`faust/actors.py`): `assert self.actor_task`
(`AssertionError`, modelled as `Except.error ()`, when the handle is null —
a Task object itself is always truthy), then `self.add_future(self.actor_task)`
registers the task with the Service contract. -/
def instanceOnStart (inst : AInstance) : Except Unit AInstance :=
  match inst.actor_task with
  | none => Except.error ()
  | some t => Except.ok ⟨inst.index, inst.source, some t, inst.futures ++ [t]⟩

/-- `ActorInstance.on_stop` (`faust/actors.py`): `self.cancel()`, which cancels
`actor_task` when one is bound. -/
def instanceOnStop (inst : AInstance) : AInstance :=
  match inst.actor_task with
  | none => inst
  | some t => ⟨inst.index, inst.source, some (ATask.cancel t), inst.futures⟩

/-- The loop body of `ActorService.on_start` (`faust/actors.py`): for each
index, `_start_task` the replica, append it to `instances`, and start it
(`res.start()` runs `on_start`, which registers the already-bound task and
leaves index/source/task untouched). -/
def serviceStartLoop : List Nat → ActorState → List AInstance × ActorState
  | [], st => ([], st)
  | i :: rest, st =>
      let r := startTask i st
      let more := serviceStartLoop rest r.2
      (r.1 :: more.1, more.2)

/-- `ActorService.on_start` (`faust/actors.py`): run the loop for
`index in range(self.actor.concurrency)`. -/
def serviceOnStart (st : ActorState) : List AInstance × ActorState :=
  serviceStartLoop (List.range st.concurrency) st

/-! ## Handler-result classification (`Actor.__call__`) -/

/-- The two instance variants an actor invocation can produce. -/
inductive Variant : Type where
  | awaitableActor : Variant
  | asyncIterableActor : Variant
  deriving DecidableEq, Repr

/-- A handler result as `Actor.__call__` sees it: an arbitrary object carrying
its structural capabilities — whether `isinstance(res, Awaitable)` and whether
it is an async iterable. -/
structure HandlerRes : Type where
  isAwaitable : Bool
  isAsyncIterable : Bool
  objId : Nat
  deriving DecidableEq, Repr

/-- The classification in `Actor.__call__` (`faust/actors.py`): if the result
is `Awaitable`, wrap it as an `AwaitableActor`; otherwise fall through to
`AsyncIterableActor`.  Only structural capability checks are consulted. -/
def classify (res : HandlerRes) : Variant :=
  if res.isAwaitable then .awaitableActor else .asyncIterableActor

/-! ## Sink fan-out (`Actor._delegate_to_sinks` and `Actor._slurp`) -/

/-- One registered sink: an identity and its behaviour on each value
(`none` = the call returns normally, `some e` = it raises error `e`).
`maybe_async` awaits plain and suspending sinks uniformly, so only the
outcome matters. -/
structure SSink : Type where
  id : Nat
  run : Nat → Option Nat

/-- `Actor._delegate_to_sinks` (`faust/actors.py`): `for sink in self._sinks:
await maybe_async(sink(value))`.  Returns the trace of sink invocations
(sink id, value) in order, and the first error raised (which aborts the
remaining sinks), if any. -/
def delegateToSinks : List SSink → Nat → List (Nat × Nat) × Option Nat
  | [], _ => ([], none)
  | s :: rest, v =>
      match s.run v with
      | none =>
          let r := delegateToSinks rest v
          ((s.id, v) :: r.1, r.2)
      | some e => ([(s.id, v)], some e)

/-- `Actor._slurp` (`faust/actors.py`): consume the async iterator value by
value, delegating each value to the sinks; an error raised by a sink
propagates out of the loop and fails the coroutine, otherwise the loop runs
to the iterator's exhaustion.  Returns the full sink-invocation trace and the
coroutine's outcome. -/
def slurp (sinks : List SSink) : List Nat → List (Nat × Nat) × Outcome
  | [] => ([], .ok)
  | v :: vs =>
      let r := delegateToSinks sinks v
      match r.2 with
      | none =>
          let more := slurp sinks vs
          (r.1 ++ more.1, more.2)
      | some e => (r.1, .failed e)

/-! ## Lemmas about the service start loop -/

/-- Once the source cache is populated, every further replica started by the
loop reuses the cached source and the allocation counter never moves. -/
theorem serviceStartLoop_cached (idxs : List Nat) :
    ∀ (st : ActorState) (s : Nat), st.sourceCache = some s →
      (serviceStartLoop idxs st).1.length = idxs.length
      ∧ (serviceStartLoop idxs st).1.map AInstance.index = idxs.map some
      ∧ (serviceStartLoop idxs st).1.map AInstance.source = List.replicate idxs.length s
      ∧ (serviceStartLoop idxs st).2.sourceCache = some s
      ∧ (serviceStartLoop idxs st).2.nextSourceId = st.nextSourceId := by
  induction idxs with
  | nil =>
      intro st s h
      exact ⟨rfl, rfl, rfl, h, rfl⟩
  | cons i rest ih =>
      intro st s h
      have hg : getSource st = (s, st) := by simp [getSource, h]
      have hstart : startTask i st =
          (⟨some i, s, some ⟨st.nextTaskId, false⟩, []⟩,
            ⟨st.concurrency, some s, st.nextSourceId, st.nextTaskId + 1⟩) := by
        simp [startTask, hg, h]
      obtain ⟨l1, l2, l3, l4, l5⟩ :=
        ih ⟨st.concurrency, some s, st.nextSourceId, st.nextTaskId + 1⟩ s rfl
      refine ⟨?_, ?_, ?_, ?_, ?_⟩ <;>
        simp [serviceStartLoop, hstart, l1, l2, l3, l4, l5, List.replicate_succ]

/-! ## Claim theorems: actor lifecycle -/

/-- C1: for every concurrency `N ≥ 1`, `ActorService.on_start` creates exactly
`N` actor instances, appended in index order `0..N-1`; every instance's
underlying source is the same object (the memoized `Actor.source`), and the
source is allocated at most once across the whole start. -/
theorem actorService_onStart_instances_share_source :
    ∀ st : ActorState, 1 ≤ st.concurrency →
      (serviceOnStart st).1.length = st.concurrency
      ∧ (serviceOnStart st).1.map AInstance.index = (List.range st.concurrency).map some
      ∧ (serviceOnStart st).1.map AInstance.source
          = List.replicate st.concurrency (getSource st).1
      ∧ (serviceOnStart st).2.nextSourceId ≤ st.nextSourceId + 1 := by
  intro st hN
  cases hc : st.sourceCache with
  | some s =>
      have hg : (getSource st).1 = s := by simp [getSource, hc]
      obtain ⟨l1, l2, l3, l4, l5⟩ :=
        serviceStartLoop_cached (List.range st.concurrency) st s hc
      refine ⟨?_, ?_, ?_, ?_⟩
      · simpa using l1
      · exact l2
      · simpa [serviceOnStart, hg] using l3
      · have l5' : (serviceOnStart st).2.nextSourceId = st.nextSourceId := l5
        omega
  | none =>
      obtain ⟨k, hk⟩ : ∃ k, st.concurrency = k + 1 := ⟨st.concurrency - 1, by omega⟩
      have hg : getSource st =
          (st.nextSourceId,
            ⟨st.concurrency, some st.nextSourceId, st.nextSourceId + 1, st.nextTaskId⟩) := by
        simp [getSource, hc]
      have hstart : startTask 0 st =
          (⟨some 0, st.nextSourceId, some ⟨st.nextTaskId, false⟩, []⟩,
            ⟨st.concurrency, some st.nextSourceId, st.nextSourceId + 1,
              st.nextTaskId + 1⟩) := by
        simp [startTask, hg]
      obtain ⟨l1, l2, l3, l4, l5⟩ :=
        serviceStartLoop_cached ((List.range k).map Nat.succ)
          ⟨st.concurrency, some st.nextSourceId, st.nextSourceId + 1, st.nextTaskId + 1⟩
          st.nextSourceId rfl
      have hrange : List.range st.concurrency = 0 :: (List.range k).map Nat.succ := by
        rw [hk]; exact List.range_succ_eq_map k
      refine ⟨?_, ?_, ?_, ?_⟩
      · simp only [serviceOnStart]
        rw [hrange]
        simp [serviceStartLoop, hstart, l1]
        omega
      · simp only [serviceOnStart]
        rw [hrange]
        simp [serviceStartLoop, hstart, l2]
      · simp only [serviceOnStart]
        rw [hrange, hk]
        simp [serviceStartLoop, hstart, l3, hg, List.replicate_succ]
      · simp only [serviceOnStart]
        rw [hrange]
        simp [serviceStartLoop, hstart, l5]

/-- Witness for C1: a concrete actor with concurrency 3 and an untouched
source cache yields three instances, indexed 0,1,2, all wrapping source 0,
with exactly one source allocation. -/
theorem actorService_onStart_instances_share_source_witness :
    (serviceOnStart ⟨3, none, 0, 0⟩).1.length = 3
    ∧ (serviceOnStart ⟨3, none, 0, 0⟩).1.map AInstance.index
        = (List.range 3).map some
    ∧ (serviceOnStart ⟨3, none, 0, 0⟩).1.map AInstance.source
        = List.replicate 3 (getSource ⟨3, none, 0, 0⟩).1
    ∧ (serviceOnStart ⟨3, none, 0, 0⟩).2.nextSourceId ≤ 0 + 1 :=
  actorService_onStart_instances_share_source ⟨3, none, 0, 0⟩ (by decide)

/-- C2: `Actor._execute_task` on a body failing with a non-cancellation error
invokes the configured error hook exactly once with `(actor, error)` and then
re-raises the original error, so the task ends failed; with no hook configured
the error is re-raised directly. -/
theorem executeTask_error_hook_spec :
    ∀ (selfActor e h : Nat),
      executeTask selfActor (some h) (.failed e) = ([(h, selfActor, e)], .failed e)
      ∧ executeTask selfActor none (.failed e) = ([], .failed e) := by
  intro selfActor e h
  exact ⟨rfl, rfl⟩

/-- C3: `Actor._execute_task` propagates cancellation unchanged and never
invokes the error hook for it; `ActorInstance.on_stop` cancels the bound task,
so stopping a running instance makes the supervision wrapper observe
cancellation and produce no hook invocation. -/
theorem executeTask_cancellation_spec :
    ∀ (selfActor : Nat) (onError : Option Nat) (inst : AInstance) (t : ATask)
      (body : Outcome),
      inst.actor_task = some t →
        executeTask selfActor onError Outcome.cancelled = ([], .cancelled)
        ∧ (instanceOnStop inst).actor_task = some (ATask.cancel t)
        ∧ executeTask selfActor onError (ATask.outcome (ATask.cancel t) body)
            = ([], .cancelled) := by
  intro selfActor onError inst t body h
  refine ⟨?_, ?_, ?_⟩
  · cases onError <;> rfl
  · simp [instanceOnStop, h]
  · cases onError <;> rfl

/-- Witness for C3: cancelling a concrete running instance (task 7, hook 5
configured) produces no hook invocation and a cancelled outcome. -/
theorem executeTask_cancellation_witness :
    executeTask 0 (some 5) Outcome.cancelled = ([], .cancelled)
    ∧ (instanceOnStop ⟨some 0, 0, some ⟨7, false⟩, []⟩).actor_task
        = some (ATask.cancel ⟨7, false⟩)
    ∧ executeTask 0 (some 5) (ATask.outcome (ATask.cancel ⟨7, false⟩) Outcome.ok)
        = ([], .cancelled) :=
  executeTask_cancellation_spec 0 (some 5) ⟨some 0, 0, some ⟨7, false⟩, []⟩
    ⟨7, false⟩ Outcome.ok rfl

/-- Counterexample for C4: a handler result that is structurally both
awaitable and an async sequence (a Python object may implement both
`__await__` and `__aiter__`) is wrapped as an `AwaitableActor`, not as the
sequence instance the claim requires for every async sequence: the
`isinstance(res, Awaitable)` check takes precedence. -/
theorem classify_both_capabilities_counterexample :
    (HandlerRes.mk true true 0).isAsyncIterable = true
    ∧ classify (HandlerRes.mk true true 0) ≠ Variant.asyncIterableActor := by
  decide

/-- C4 (amended): `Actor.__call__` classifies handler results structurally by
capability check, with the awaitable check taking precedence: an awaitable
result is wrapped as a single-result (`AwaitableActor`) instance, and an async
sequence that is not also awaitable is wrapped as a sequence
(`AsyncIterableActor`) instance. -/
theorem classify_structural_spec :
    ∀ res : HandlerRes,
      (res.isAwaitable = true → classify res = Variant.awaitableActor)
      ∧ (res.isAsyncIterable = true → res.isAwaitable = false →
          classify res = Variant.asyncIterableActor) := by
  intro res
  constructor
  · intro h; simp [classify, h]
  · intro _ h; simp [classify, h]

/-- Witness for C4: a coroutine-shaped result (awaitable only) becomes an
`AwaitableActor`; an async-generator-shaped result (async iterable only)
becomes an `AsyncIterableActor`. -/
theorem classify_structural_witness :
    classify (HandlerRes.mk true false 0) = Variant.awaitableActor
    ∧ classify (HandlerRes.mk false true 1) = Variant.asyncIterableActor :=
  ⟨(classify_structural_spec (HandlerRes.mk true false 0)).1 rfl,
    (classify_structural_spec (HandlerRes.mk false true 1)).2 rfl rfl⟩

/-- C5: `Actor._delegate_to_sinks` invokes every registered sink exactly once
per value, in registration (append) order, when all sinks succeed; a raising
sink aborts the remaining sinks for that value; the failure propagates out of
the consumption loop `Actor._slurp` and on to task supervision, failing the
task. -/
theorem delegate_to_sinks_spec :
    ∀ (sinks pre post : List SSink) (bad : SSink) (v e selfActor : Nat)
      (vs : List Nat) (onError : Option Nat),
      ((∀ s ∈ sinks, s.run v = none) →
        delegateToSinks sinks v = (sinks.map fun s => (s.id, v), none))
      ∧ ((∀ s ∈ pre, s.run v = none) → bad.run v = some e →
          delegateToSinks (pre ++ bad :: post) v
            = ((pre.map fun s => (s.id, v)) ++ [(bad.id, v)], some e))
      ∧ ((delegateToSinks sinks v).2 = some e →
          slurp sinks (v :: vs) = ((delegateToSinks sinks v).1, .failed e)
          ∧ (executeTask selfActor onError (.failed e)).2 = .failed e) := by
  intro sinks pre post bad v e selfActor vs onError
  refine ⟨?_, ?_, ?_⟩
  · intro hall
    induction sinks with
    | nil => rfl
    | cons s rest ih =>
        have hs : s.run v = none := hall s (by simp)
        have hrest := ih fun s' hs' => hall s' (by simp [hs'])
        simp [delegateToSinks, hs, hrest]
  · intro hpre hbad
    induction pre with
    | nil => simp [delegateToSinks, hbad]
    | cons s rest ih =>
        have hs : s.run v = none := hpre s (by simp)
        have hrest := ih fun s' hs' => hpre s' (by simp [hs'])
        simp [delegateToSinks, hs, hrest]
  · intro hfail
    constructor
    · simp [slurp, hfail]
    · cases onError <;> rfl

/-- Witness for C5: three concrete sinks where all succeed (exactly one
invocation each, in order); then sink 1 of three raises error 9 on value 5,
sink 2 is never invoked, the loop stops with value 6 unprocessed, and the
supervised task fails. -/
theorem delegate_to_sinks_witness :
    delegateToSinks [⟨0, fun _ => none⟩, ⟨1, fun _ => none⟩] 5
      = ([(0, 5), (1, 5)], none)
    ∧ delegateToSinks
        [⟨0, fun _ => none⟩, ⟨1, fun _ => some 9⟩, ⟨2, fun _ => none⟩] 5
      = ([(0, 5), (1, 5)], some 9)
    ∧ (slurp [⟨0, fun _ => none⟩, ⟨1, fun _ => some 9⟩, ⟨2, fun _ => none⟩] [5, 6]
        = ([(0, 5), (1, 5)], .failed 9)
      ∧ (executeTask 0 (some 3) (.failed 9)).2 = .failed 9) :=
  ⟨by
      have h := (delegate_to_sinks_spec [⟨0, fun _ => none⟩, ⟨1, fun _ => none⟩]
        [] [] ⟨9, fun _ => none⟩ 5 9 0 [] none).1 (by intro s hs; fin_cases hs <;> rfl)
      simpa using h,
    by
      have h := (delegate_to_sinks_spec []
        [⟨0, fun _ => none⟩] [⟨2, fun _ => none⟩] ⟨1, fun _ => some 9⟩ 5 9 0 [] none).2.1
        (by intro s hs; fin_cases hs; rfl) rfl
      simpa using h,
    by
      have h := (delegate_to_sinks_spec
        [⟨0, fun _ => none⟩, ⟨1, fun _ => some 9⟩, ⟨2, fun _ => none⟩]
        [] [] ⟨9, fun _ => none⟩ 5 9 0 [6] (some 3)).2.2 rfl
      simpa using h⟩

/-- Counterexample for C6: Python evaluates `correlation_id or str(uuid4())`,
so an explicitly passed empty correlation id is treated as absent and replaced
by the generated uuid: the envelope's correlation id is not the passed `""`. -/
theorem ask_empty_correlation_id_counterexample :
    (Actor.ask 0 "topic" "fresh-uuid" none (AVal.vstr "v") "R" (some "")).2.req.correlation_id
      ≠ "" := by
  decide

/-- C6 (amended): `Actor.ask` with no correlation id builds a `ReqRepRequest`
whose correlation id is the freshly generated uuid (non-empty, as `str(uuid4())`
always is), with `reply_to = R`, `value = V`, and namespace taken from the
value's own model metadata when it is a structured record and null otherwise;
the envelope is sent to the actor's topic and the returned `ReplyPromise`
references this actor and that same request.  With an explicit non-empty
correlation id `C` the envelope's correlation id is exactly `C` (an empty
string is falsy and treated as absent). -/
theorem ask_builds_request_spec :
    ∀ (selfActor : Nat) (selfTopic freshId : String) (key : Option AVal)
      (value : AVal) (r c : String),
      freshId ≠ "" →
        ((Actor.ask selfActor selfTopic freshId key value r none).1.value
            = MsgVal.request (Actor.ask selfActor selfTopic freshId key value r none).2.req
          ∧ (Actor.ask selfActor selfTopic freshId key value r none).2.req.correlation_id
              = freshId
          ∧ (Actor.ask selfActor selfTopic freshId key value r none).2.req.correlation_id
              ≠ ""
          ∧ (Actor.ask selfActor selfTopic freshId key value r none).2.req.reply_to = r
          ∧ (Actor.ask selfActor selfTopic freshId key value r none).2.req.value = value
          ∧ (Actor.ask selfActor selfTopic freshId key value r none).2.req.ns
              = modelNamespace value
          ∧ (Actor.ask selfActor selfTopic freshId key value r none).2.actor = selfActor
          ∧ (Actor.ask selfActor selfTopic freshId key value r none).1.dest = selfTopic
          ∧ (Actor.ask selfActor selfTopic freshId key value r none).1.key = key)
        ∧ (c ≠ "" →
            (Actor.ask selfActor selfTopic freshId key value r (some c)).2.req.correlation_id
              = c) := by
  intro selfActor selfTopic freshId key value r c hfresh
  constructor
  · exact ⟨rfl, rfl, hfresh, rfl, rfl, rfl, rfl, rfl, rfl⟩
  · intro hc
    simp [Actor.ask, pyOrStr, hc]

/-- Witness for C6: a concrete `ask` with a model value, generated uuid
`"u1"`, reply destination `"R"`; and a second call with explicit non-empty
correlation id `"C"`. -/
theorem ask_builds_request_witness :
    ((Actor.ask 1 "t" "u1" none (AVal.vmodel "ns1" "p") "R" none).1.value
        = MsgVal.request (Actor.ask 1 "t" "u1" none (AVal.vmodel "ns1" "p") "R" none).2.req
      ∧ (Actor.ask 1 "t" "u1" none (AVal.vmodel "ns1" "p") "R" none).2.req.correlation_id
          = "u1"
      ∧ (Actor.ask 1 "t" "u1" none (AVal.vmodel "ns1" "p") "R" none).2.req.correlation_id
          ≠ ""
      ∧ (Actor.ask 1 "t" "u1" none (AVal.vmodel "ns1" "p") "R" none).2.req.reply_to = "R"
      ∧ (Actor.ask 1 "t" "u1" none (AVal.vmodel "ns1" "p") "R" none).2.req.value
          = AVal.vmodel "ns1" "p"
      ∧ (Actor.ask 1 "t" "u1" none (AVal.vmodel "ns1" "p") "R" none).2.req.ns
          = modelNamespace (AVal.vmodel "ns1" "p")
      ∧ (Actor.ask 1 "t" "u1" none (AVal.vmodel "ns1" "p") "R" none).2.actor = 1
      ∧ (Actor.ask 1 "t" "u1" none (AVal.vmodel "ns1" "p") "R" none).1.dest = "t"
      ∧ (Actor.ask 1 "t" "u1" none (AVal.vmodel "ns1" "p") "R" none).1.key = none)
    ∧ (Actor.ask 1 "t" "u1" none (AVal.vmodel "ns1" "p") "R" (some "C")).2.req.correlation_id
        = "C" :=
  ⟨(ask_builds_request_spec 1 "t" "u1" none (AVal.vmodel "ns1" "p") "R" "C"
      (by decide)).1,
    (ask_builds_request_spec 1 "t" "u1" none (AVal.vmodel "ns1" "p") "R" "C"
      (by decide)).2 (by decide)⟩

/-- C7: `Actor.reply` sends a `ReqRepResponse` envelope to `req.reply_to`
whose correlation id equals `req.correlation_id`, whose value is `V`, and
whose namespace is read from `V`'s own model metadata. -/
theorem reply_sends_response_spec :
    ∀ (key : Option AVal) (value : AVal) (req : ReqRepRequest) (ns : String),
      modelNamespace value = some ns →
        Actor.reply key value req
          = Except.ok ⟨req.reply_to, key, MsgVal.response ⟨ns, value, req.correlation_id⟩⟩ := by
  intro key value req ns h
  simp [Actor.reply, h]

/-- Witness for C7: replying with a model value carrying namespace `"nsv"` to
a concrete request destined for `"dest"` with correlation id `"c1"`. -/
theorem reply_sends_response_witness :
    Actor.reply (some (AVal.vstr "k")) (AVal.vmodel "nsv" "pl")
        ⟨some "nsq", AVal.vstr "q", "dest", "c1"⟩
      = Except.ok ⟨"dest", some (AVal.vstr "k"),
          MsgVal.response ⟨"nsv", AVal.vmodel "nsv" "pl", "c1"⟩⟩ :=
  reply_sends_response_spec (some (AVal.vstr "k")) (AVal.vmodel "nsv" "pl")
    ⟨some "nsq", AVal.vstr "q", "dest", "c1"⟩ "nsv" rfl

/-- C9: `ActorInstance.on_start` fails its assertion exactly when the task
handle is null, and otherwise registers the task with the owning Service
contract (`add_future`) before returning; since `Actor._start_task` always
binds a task before the instance is started, the assertion branch is
unreachable for instances it produces. -/
theorem instance_on_start_assertion_spec :
    ∀ (inst inst2 : AInstance) (t : ATask) (i : Nat) (st : ActorState),
      (inst.actor_task = none → instanceOnStart inst = Except.error ())
      ∧ (inst2.actor_task = some t →
          instanceOnStart inst2
            = Except.ok ⟨inst2.index, inst2.source, some t, inst2.futures ++ [t]⟩)
      ∧ instanceOnStart (startTask i st).1 ≠ Except.error () := by
  intro inst inst2 t i st
  refine ⟨?_, ?_, ?_⟩
  · intro h; simp [instanceOnStart, h]
  · intro h; simp [instanceOnStart, h]
  · simp [instanceOnStart, startTask]

/-- Witness for C9: an instance with a null task handle fails the assertion;
a concrete instance with task 3 registers it; and the instance produced by
`_start_task` at index 0 passes the assertion. -/
theorem instance_on_start_assertion_witness :
    (instanceOnStart ⟨some 0, 0, none, []⟩ = Except.error ())
    ∧ (instanceOnStart ⟨some 1, 2, some ⟨3, false⟩, []⟩
        = Except.ok ⟨some 1, 2, some ⟨3, false⟩, [⟨3, false⟩]⟩)
    ∧ instanceOnStart (startTask 0 ⟨1, none, 0, 0⟩).1 ≠ Except.error () :=
  ⟨(instance_on_start_assertion_spec ⟨some 0, 0, none, []⟩
      ⟨some 1, 2, some ⟨3, false⟩, []⟩ ⟨3, false⟩ 0 ⟨1, none, 0, 0⟩).1 rfl,
    (instance_on_start_assertion_spec ⟨some 0, 0, none, []⟩
      ⟨some 1, 2, some ⟨3, false⟩, []⟩ ⟨3, false⟩ 0 ⟨1, none, 0, 0⟩).2.1 rfl,
    (instance_on_start_assertion_spec ⟨some 0, 0, none, []⟩
      ⟨some 1, 2, some ⟨3, false⟩, []⟩ ⟨3, false⟩ 0 ⟨1, none, 0, 0⟩).2.2⟩

/-! ## Codecs (`faust/serializers/codecs.py`)

The codec chain structure (`Codec.nodes`, `dumps` as a left fold of the
nodes' `_dumps`, `loads` as a left fold of the reversed nodes' `_loads`,
`clone`/`__or__` chaining, the name registry and `get_codec`) is embedded
from the source.  The leaf byte transforms live outside `src/`:
`faust/utils/json.py` and `faust/utils/compat.py` belong to the repository
but are not provided, and `base64`/`pickle` are the standard library.  The
json/pickle leaves are therefore modelled from the spec (§6: a pure,
stateless `encode(value) -> bytes` / `decode(bytes) -> value` pair) as an
explicit self-delimiting byte encoding with a verified decoder, and base64
is implemented directly.

Byte strings are `List Nat` with every element `< 256`; dynamic Python
values visible to the codecs form `JVal` (the JSON-serializable values plus
byte strings). -/

/-- Fuel-driven worker for `natEnc`; the fuel is an upper bound on the
number, which shrinks by a factor of 255 per digit. -/
def natEncAux : Nat → Nat → List Nat
  | _, 0 => [255]
  | 0, _ + 1 => [255]
  | f + 1, n + 1 => (n + 1) % 255 :: natEncAux f ((n + 1) / 255)

/-- Self-delimiting encoding of a natural number: little-endian base-255
digits (each `< 255`) closed by the terminator byte `255`. -/
def natEnc (n : Nat) : List Nat := natEncAux n n

/-- Decoder for `natEnc`: read digits until the terminator. -/
def natDec : List Nat → Option (Nat × List Nat)
  | [] => none
  | d :: r =>
      if d = 255 then some (0, r)
      else if d < 255 then
        match natDec r with
        | some (m, r') => some (d + 255 * m, r')
        | none => none
      else none

theorem natEncAux_eq (f n : Nat) (h : n ≤ f) :
    natEncAux f n = if n = 0 then [255] else n % 255 :: natEncAux (f - 1) (n / 255) := by
  cases n with
  | zero => cases f <;> rfl
  | succ m =>
      cases f with
      | zero => omega
      | succ f' => simp [natEncAux]

theorem natDec_natEnc_aux (f : Nat) :
    ∀ n r, n ≤ f → natDec (natEncAux f n ++ r) = some (n, r) := by
  induction f with
  | zero =>
      intro n r h
      have h0 : n = 0 := by omega
      subst h0
      simp [natEncAux, natDec]
  | succ f' ih =>
      intro n r h
      cases n with
      | zero => simp [natEncAux, natDec]
      | succ m =>
          have hd : (m + 1) % 255 < 255 := Nat.mod_lt _ (by omega)
          have hdiv : (m + 1) / 255 ≤ f' := by
            have := Nat.div_lt_self (Nat.succ_pos m) (by omega : 1 < 255)
            omega
          have hrec := ih ((m + 1) / 255) r hdiv
          rw [show natEncAux (f' + 1) (m + 1) ++ r
              = ((m + 1) % 255) :: (natEncAux f' ((m + 1) / 255) ++ r) by
            simp [natEncAux]]
          simp only [natDec]
          rw [if_neg (by omega), if_pos hd, hrec]
          have heq : (m + 1) % 255 + 255 * ((m + 1) / 255) = m + 1 := by omega
          simp [heq]

/-- Round trip for the base-255 length-free number code. -/
theorem natDec_natEnc (n : Nat) (r : List Nat) :
    natDec (natEnc n ++ r) = some (n, r) :=
  natDec_natEnc_aux n n r (Nat.le_refl n)

theorem natEncAux_lt (f : Nat) :
    ∀ n x, x ∈ natEncAux f n → x < 256 := by
  induction f with
  | zero =>
      intro n x hx
      cases n <;> simp [natEncAux] at hx <;> omega
  | succ f' ih =>
      intro n x hx
      cases n with
      | zero => simp [natEncAux] at hx; omega
      | succ m =>
          simp only [natEncAux, List.mem_cons] at hx
          rcases hx with h | h
          · have : (m + 1) % 255 < 255 := Nat.mod_lt _ (by omega)
            omega
          · exact ih _ x h

/-- Every byte produced by `natEnc` fits in a byte. -/
theorem natEnc_lt (n : Nat) (x : Nat) (hx : x ∈ natEnc n) : x < 256 :=
  natEncAux_lt n n x hx

theorem natEnc_ne_nil (n : Nat) : natEnc n ≠ [] := by
  unfold natEnc
  rw [natEncAux_eq n n (Nat.le_refl n)]
  split <;> simp

/-- Sign-and-magnitude integer code on top of `natEnc`. -/
def intEnc (n : Int) : List Nat :=
  if n < 0 then 1 :: natEnc (-n).toNat else 0 :: natEnc n.toNat

/-- Decoder for `intEnc`. -/
def intDec : List Nat → Option (Int × List Nat)
  | [] => none
  | sign :: r =>
      if sign = 0 then
        match natDec r with
        | some (m, r') => some (Int.ofNat m, r')
        | none => none
      else if sign = 1 then
        match natDec r with
        | some (m, r') => some (-(Int.ofNat m), r')
        | none => none
      else none

theorem intDec_intEnc (n : Int) (r : List Nat) :
    intDec (intEnc n ++ r) = some (n, r) := by
  unfold intEnc
  by_cases h : n < 0
  · rw [if_pos h]
    simp [intDec, natDec_natEnc]
    omega
  · rw [if_neg h]
    simp [intDec, natDec_natEnc]
    omega

theorem intEnc_lt (n : Int) (x : Nat) (hx : x ∈ intEnc n) : x < 256 := by
  unfold intEnc at hx
  split at hx <;> simp only [List.mem_cons] at hx <;>
    rcases hx with h | h <;> first
      | omega
      | exact natEnc_lt _ x h

/-- Character-list encoding: each character's code point through `natEnc`. -/
def encChars : List Char → List Nat
  | [] => []
  | c :: cs => natEnc c.toNat ++ encChars cs

/-- Read `count` characters back. -/
def charsDec : Nat → List Nat → Option (List Char × List Nat)
  | 0, r => some ([], r)
  | k + 1, r =>
      match natDec r with
      | some (c, r') =>
          match charsDec k r' with
          | some (cs, r'') => some (Char.ofNat c :: cs, r'')
          | none => none
      | none => none

theorem charsDec_encChars (cs : List Char) (r : List Nat) :
    charsDec cs.length (encChars cs ++ r) = some (cs, r) := by
  induction cs generalizing r with
  | nil => rfl
  | cons c cs ih =>
      simp only [encChars, List.length_cons, List.append_assoc, charsDec,
        natDec_natEnc, ih, Char.ofNat_toNat]

/-- Length-prefixed string code. -/
def strEnc (s : String) : List Nat := natEnc s.data.length ++ encChars s.data

/-- Decoder for `strEnc`. -/
def strDec (r : List Nat) : Option (String × List Nat) :=
  match natDec r with
  | some (n, r') =>
      match charsDec n r' with
      | some (cs, r'') => some (String.mk cs, r'')
      | none => none
  | none => none

theorem strDec_strEnc (s : String) (r : List Nat) :
    strDec (strEnc s ++ r) = some (s, r) := by
  cases s with
  | mk cs =>
      simp only [strEnc, strDec, List.append_assoc, natDec_natEnc,
        charsDec_encChars]

theorem encChars_lt (cs : List Char) (x : Nat) (hx : x ∈ encChars cs) : x < 256 := by
  induction cs with
  | nil => simp [encChars] at hx
  | cons c cs ih =>
      simp only [encChars, List.mem_append] at hx
      rcases hx with h | h
      · exact natEnc_lt _ x h
      · exact ih h

theorem strEnc_lt (s : String) (x : Nat) (hx : x ∈ strEnc s) : x < 256 := by
  simp only [strEnc, List.mem_append] at hx
  rcases hx with h | h
  · exact natEnc_lt _ x h
  · exact encChars_lt _ x h

/-- Byte payloads re-encoded bytewise through `natEnc` (keeping the whole
stream under 256 regardless of input). -/
def encBytes : List Nat → List Nat
  | [] => []
  | b :: bs => natEnc b ++ encBytes bs

/-- Read `count` payload bytes back. -/
def bytesDec : Nat → List Nat → Option (List Nat × List Nat)
  | 0, r => some ([], r)
  | k + 1, r =>
      match natDec r with
      | some (b, r') =>
          match bytesDec k r' with
          | some (bs, r'') => some (b :: bs, r'')
          | none => none
      | none => none

theorem bytesDec_encBytes (bs : List Nat) (r : List Nat) :
    bytesDec bs.length (encBytes bs ++ r) = some (bs, r) := by
  induction bs generalizing r with
  | nil => rfl
  | cons b bs ih =>
      simp only [encBytes, List.length_cons, List.append_assoc, bytesDec,
        natDec_natEnc, ih]

theorem encBytes_lt (bs : List Nat) (x : Nat) (hx : x ∈ encBytes bs) : x < 256 := by
  induction bs with
  | nil => simp [encBytes] at hx
  | cons b bs ih =>
      simp only [encBytes, List.mem_append] at hx
      rcases hx with h | h
      · exact natEnc_lt _ x h
      · exact ih h

/-! ## Dynamic values seen by the codecs -/

mutual
/-- A dynamic Python value the codec stages accept: the JSON-serializable
values (null, bool, int, str, arrays, string-keyed objects) plus byte
strings. -/
inductive JVal : Type where
  | jnull : JVal
  | jbool (b : Bool) : JVal
  | jint (n : Int) : JVal
  | jstr (s : String) : JVal
  | jbytes (bs : List Nat) : JVal
  | jarr (xs : JArr) : JVal
  | jobj (kvs : JObj) : JVal
/-- Spine of a `JVal` array. -/
inductive JArr : Type where
  | nil : JArr
  | cons (v : JVal) (vs : JArr) : JArr
/-- Spine of a `JVal` object (string keys). -/
inductive JObj : Type where
  | nil : JObj
  | cons (k : String) (v : JVal) (kvs : JObj) : JObj
end

mutual
/-- A Python value is representable iff every byte string in it holds actual
bytes (`< 256`); `bytes` objects cannot hold anything else. -/
def JVal.wfB : JVal → Bool
  | .jbytes bs => bs.all fun b => decide (b < 256)
  | .jarr xs => JArr.wfB xs
  | .jobj kvs => JObj.wfB kvs
  | _ => true
def JArr.wfB : JArr → Bool
  | .nil => true
  | .cons v vs => JVal.wfB v && JArr.wfB vs
def JObj.wfB : JObj → Bool
  | .nil => true
  | .cons _ v kvs => JVal.wfB v && JObj.wfB kvs
end

mutual
/-- Modelled from the spec: the serialized form produced by the
`faust/utils/json.py` leaf (repository code not under `src/`; §6 specifies
only a pure `encode(value) -> bytes`).  A self-delimiting tagged byte
encoding: tag, then the payload; arrays and objects list their elements
between an element marker (7) and an end marker (8). -/
def encV : JVal → List Nat
  | .jnull => [0]
  | .jbool b => [1, cond b 1 0]
  | .jint n => 2 :: intEnc n
  | .jstr s => 3 :: strEnc s
  | .jbytes bs => 6 :: natEnc bs.length ++ encBytes bs
  | .jarr xs => 4 :: encArr xs
  | .jobj kvs => 5 :: encObj kvs
/-- Array-spine encoding: `7` before each element, `8` at the end. -/
def encArr : JArr → List Nat
  | .nil => [8]
  | .cons v vs => 7 :: encV v ++ encArr vs
/-- Object-spine encoding: `7`, the key, the value, for each pair; `8` at
the end. -/
def encObj : JObj → List Nat
  | .nil => [8]
  | .cons k v kvs => 7 :: strEnc k ++ encV v ++ encObj kvs
end

mutual
/-- Decoding-cost measure for `encV`: every recursive decoding step is
covered by one unit. -/
def szV : JVal → Nat
  | .jarr xs => 1 + szArr xs
  | .jobj kvs => 1 + szObj kvs
  | _ => 1
def szArr : JArr → Nat
  | .nil => 1
  | .cons v vs => 1 + szV v + szArr vs
def szObj : JObj → Nat
  | .nil => 1
  | .cons _ v kvs => 1 + szV v + szObj kvs
end

mutual
/-- Fuel-driven decoder inverting `encV`.  Fuel bounds the recursion depth;
`szV v` units suffice for a value `v`. -/
def decV : Nat → List Nat → Option (JVal × List Nat)
  | 0, _ => none
  | _ + 1, [] => none
  | f + 1, t :: r =>
      if t = 0 then some (.jnull, r)
      else if t = 1 then
        match r with
        | b :: r' =>
            if b = 1 then some (.jbool true, r')
            else if b = 0 then some (.jbool false, r')
            else none
        | [] => none
      else if t = 2 then
        match intDec r with
        | some (n, r') => some (.jint n, r')
        | none => none
      else if t = 3 then
        match strDec r with
        | some (s, r') => some (.jstr s, r')
        | none => none
      else if t = 6 then
        match natDec r with
        | some (n, r') =>
            match bytesDec n r' with
            | some (bs, r'') => some (.jbytes bs, r'')
            | none => none
        | none => none
      else if t = 4 then
        match decArr f r with
        | some (xs, r') => some (.jarr xs, r')
        | none => none
      else if t = 5 then
        match decObj f r with
        | some (kvs, r') => some (.jobj kvs, r')
        | none => none
      else none
/-- Array-spine decoder. -/
def decArr : Nat → List Nat → Option (JArr × List Nat)
  | 0, _ => none
  | _ + 1, [] => none
  | f + 1, m :: r =>
      if m = 8 then some (.nil, r)
      else if m = 7 then
        match decV f r with
        | some (v, r') =>
            match decArr f r' with
            | some (vs, r'') => some (.cons v vs, r'')
            | none => none
        | none => none
      else none
/-- Object-spine decoder. -/
def decObj : Nat → List Nat → Option (JObj × List Nat)
  | 0, _ => none
  | _ + 1, [] => none
  | f + 1, m :: r =>
      if m = 8 then some (.nil, r)
      else if m = 7 then
        match strDec r with
        | some (k, r') =>
            match decV f r' with
            | some (v, r'') =>
                match decObj f r'' with
                | some (kvs, r''') => some (.cons k v kvs, r''')
                | none => none
            | none => none
        | none => none
      else none
end

theorem one_le_szV (v : JVal) : 1 ≤ szV v := by
  cases v <;> simp only [szV] <;> omega

theorem one_le_szArr (xs : JArr) : 1 ≤ szArr xs := by
  cases xs <;> simp only [szArr] <;> omega

theorem one_le_szObj (kvs : JObj) : 1 ≤ szObj kvs := by
  cases kvs <;> simp only [szObj] <;> omega

/-- With fuel at least the value's decoding cost, the decoder inverts the
encoder and leaves the trailing input untouched. -/
theorem dec_enc_master : ∀ f : Nat,
    (∀ (v : JVal) (r : List Nat), szV v ≤ f → decV f (encV v ++ r) = some (v, r))
    ∧ (∀ (xs : JArr) (r : List Nat), szArr xs ≤ f → decArr f (encArr xs ++ r) = some (xs, r))
    ∧ (∀ (kvs : JObj) (r : List Nat), szObj kvs ≤ f → decObj f (encObj kvs ++ r) = some (kvs, r)) := by
  intro f
  induction f with
  | zero =>
      refine ⟨?_, ?_, ?_⟩
      · intro v r h
        exfalso
        have := one_le_szV v
        omega
      · intro xs r h
        exfalso
        have := one_le_szArr xs
        omega
      · intro kvs r h
        exfalso
        have := one_le_szObj kvs
        omega
  | succ f' ih =>
      obtain ⟨ihV, ihA, ihO⟩ := ih
      refine ⟨?_, ?_, ?_⟩
      · intro v r h
        cases v with
        | jnull => simp [encV, decV]
        | jbool b => cases b <;> simp [encV, decV]
        | jint n => simp [encV, decV, intDec_intEnc]
        | jstr s => simp [encV, decV, strDec_strEnc]
        | jbytes bs => simp [encV, decV, natDec_natEnc, bytesDec_encBytes]
        | jarr xs =>
            have hx : szArr xs ≤ f' := by simp [szV] at h; omega
            simp [encV, decV, ihA xs r hx]
        | jobj kvs =>
            have hx : szObj kvs ≤ f' := by simp [szV] at h; omega
            simp [encV, decV, ihO kvs r hx]
      · intro xs r h
        cases xs with
        | nil => simp [encArr, decArr]
        | cons v vs =>
            have h1 : szV v ≤ f' := by simp [szArr] at h; omega
            have h2 : szArr vs ≤ f' := by simp [szArr] at h; omega
            simp [encArr, decArr, ihV v (encArr vs ++ r) h1, ihA vs r h2]
      · intro kvs r h
        cases kvs with
        | nil => simp [encObj, decObj]
        | cons k v kvs' =>
            have h1 : szV v ≤ f' := by simp [szObj] at h; omega
            have h2 : szObj kvs' ≤ f' := by simp [szObj] at h; omega
            simp [encObj, decObj, strDec_strEnc,
              ihV v (encObj kvs' ++ r) h1, ihO kvs' r h2]

/-- The decoding cost never exceeds the encoded length, so the encoded
length is always enough fuel. -/
theorem sz_le_enc_length : ∀ n : Nat,
    (∀ v : JVal, szV v ≤ n → szV v ≤ (encV v).length)
    ∧ (∀ xs : JArr, szArr xs ≤ n → szArr xs ≤ (encArr xs).length)
    ∧ (∀ kvs : JObj, szObj kvs ≤ n → szObj kvs ≤ (encObj kvs).length) := by
  intro n
  induction n with
  | zero =>
      refine ⟨?_, ?_, ?_⟩
      · intro v h
        have := one_le_szV v
        omega
      · intro xs h
        have := one_le_szArr xs
        omega
      · intro kvs h
        have := one_le_szObj kvs
        omega
  | succ n' ih =>
      obtain ⟨ihV, ihA, ihO⟩ := ih
      refine ⟨?_, ?_, ?_⟩
      · intro v h
        cases v with
        | jarr xs =>
            have hx : szArr xs ≤ n' := by simp [szV] at h; omega
            have := ihA xs hx
            simp [szV, encV]
            omega
        | jobj kvs =>
            have hx : szObj kvs ≤ n' := by simp [szV] at h; omega
            have := ihO kvs hx
            simp [szV, encV]
            omega
        | _ => simp [szV, encV]
      · intro xs h
        cases xs with
        | nil => simp [szArr, encArr]
        | cons v vs =>
            have h1 : szV v ≤ n' := by simp [szArr] at h; omega
            have h2 : szArr vs ≤ n' := by simp [szArr] at h; omega
            have := ihV v h1
            have := ihA vs h2
            simp [szArr, encArr]
            omega
      · intro kvs h
        cases kvs with
        | nil => simp [szObj, encObj]
        | cons k v kvs' =>
            have h1 : szV v ≤ n' := by simp [szObj] at h; omega
            have h2 : szObj kvs' ≤ n' := by simp [szObj] at h; omega
            have := ihV v h1
            have := ihO kvs' h2
            simp [szObj, encObj]
            omega

/-- Decoding with fuel equal to the encoded length recovers the value and
consumes the whole input. -/
theorem decV_encV (v : JVal) :
    decV (encV v).length (encV v) = some (v, []) := by
  have h1 : szV v ≤ (encV v).length := (sz_le_enc_length (szV v)).1 v (Nat.le_refl _)
  have h2 := (dec_enc_master (encV v).length).1 v [] h1
  simpa using h2

/-- Every byte of the encoding fits in a byte, whatever the input value. -/
theorem enc_lt_master : ∀ n : Nat,
    (∀ v : JVal, szV v ≤ n → ∀ x ∈ encV v, x < 256)
    ∧ (∀ xs : JArr, szArr xs ≤ n → ∀ x ∈ encArr xs, x < 256)
    ∧ (∀ kvs : JObj, szObj kvs ≤ n → ∀ x ∈ encObj kvs, x < 256) := by
  intro n
  induction n with
  | zero =>
      refine ⟨?_, ?_, ?_⟩
      · intro v h
        have := one_le_szV v
        omega
      · intro xs h
        have := one_le_szArr xs
        omega
      · intro kvs h
        have := one_le_szObj kvs
        omega
  | succ n' ih =>
      obtain ⟨ihV, ihA, ihO⟩ := ih
      refine ⟨?_, ?_, ?_⟩
      · intro v h x hx
        cases v with
        | jnull => simp [encV] at hx; omega
        | jbool b => cases b <;> simp [encV] at hx <;> omega
        | jint m =>
            simp only [encV, List.mem_cons] at hx
            rcases hx with h' | h'
            · omega
            · exact intEnc_lt m x h'
        | jstr s =>
            simp only [encV, List.mem_cons] at hx
            rcases hx with h' | h'
            · omega
            · exact strEnc_lt s x h'
        | jbytes bs =>
            simp only [encV, List.cons_append, List.mem_cons, List.mem_append] at hx
            rcases hx with h' | h' | h'
            · omega
            · exact natEnc_lt _ x h'
            · exact encBytes_lt bs x h'
        | jarr xs =>
            have hsz : szArr xs ≤ n' := by simp [szV] at h; omega
            simp only [encV, List.mem_cons] at hx
            rcases hx with h' | h'
            · omega
            · exact ihA xs hsz x h'
        | jobj kvs =>
            have hsz : szObj kvs ≤ n' := by simp [szV] at h; omega
            simp only [encV, List.mem_cons] at hx
            rcases hx with h' | h'
            · omega
            · exact ihO kvs hsz x h'
      · intro xs h x hx
        cases xs with
        | nil => simp [encArr] at hx; omega
        | cons v vs =>
            have h1 : szV v ≤ n' := by simp [szArr] at h; omega
            have h2 : szArr vs ≤ n' := by simp [szArr] at h; omega
            simp only [encArr, List.cons_append, List.mem_cons, List.mem_append] at hx
            rcases hx with h' | h' | h'
            · omega
            · exact ihV v h1 x h'
            · exact ihA vs h2 x h'
      · intro kvs h x hx
        cases kvs with
        | nil => simp [encObj] at hx; omega
        | cons k v kvs' =>
            have h1 : szV v ≤ n' := by simp [szObj] at h; omega
            have h2 : szObj kvs' ≤ n' := by simp [szObj] at h; omega
            simp only [encObj, List.cons_append, List.append_assoc,
              List.mem_cons, List.mem_append] at hx
            rcases hx with h' | h' | h' | h'
            · omega
            · exact strEnc_lt k x h'
            · exact ihV v h1 x h'
            · exact ihO kvs' h2 x h'

/-- Every byte of `encV` fits in a byte. -/
theorem encV_lt (v : JVal) (x : Nat) (hx : x ∈ encV v) : x < 256 :=
  (enc_lt_master (szV v)).1 v (Nat.le_refl _) x hx

/-! ## Base64 (the `binary` codec's `b64encode`/`b64decode`) -/

/-- The standard (non-urlsafe) base64 alphabet as character codes:
`A-Z`, `a-z`, `0-9`, `+`, `/`. -/
def b64chr (s : Nat) : Nat :=
  if s < 26 then 65 + s
  else if s < 52 then 71 + s
  else if s < 62 then s - 4
  else if s = 62 then 43
  else 47

/-- Index of an alphabet character code. -/
def b64idx (c : Nat) : Nat :=
  if c = 43 then 62
  else if c = 47 then 63
  else if c < 58 then c + 4
  else if c < 91 then c - 65
  else c - 71

theorem b64idx_b64chr : ∀ s, s < 64 → b64idx (b64chr s) = s := by decide

theorem b64chr_ne_pad : ∀ s, s < 64 → b64chr s ≠ 61 := by decide

theorem b64chr_lt : ∀ s, b64chr s < 256 := by
  intro s
  unfold b64chr
  split_ifs <;> omega

/-- `base64.b64encode`: encode three input bytes into four alphabet
characters, padding a final group of one or two bytes with `=` (61). -/
def b64e : List Nat → List Nat
  | [] => []
  | [a] => [b64chr (a / 4), b64chr (a % 4 * 16), 61, 61]
  | [a, b] => [b64chr (a / 4), b64chr (a % 4 * 16 + b / 16), b64chr (b % 16 * 4), 61]
  | a :: b :: c :: rest =>
      b64chr (a / 4) :: b64chr (a % 4 * 16 + b / 16)
        :: b64chr (b % 16 * 4 + c / 64) :: b64chr (c % 64) :: b64e rest

/-- `base64.b64decode`: decode four characters into three bytes, honouring
`=` padding in the final group. -/
def b64d : List Nat → List Nat
  | w :: x :: y :: z :: rest =>
      if y = 61 then [b64idx w * 4 + b64idx x / 16]
      else if z = 61 then
        [b64idx w * 4 + b64idx x / 16, b64idx x % 16 * 16 + b64idx y / 4]
      else
        (b64idx w * 4 + b64idx x / 16)
          :: (b64idx x % 16 * 16 + b64idx y / 4)
          :: (b64idx y % 4 * 64 + b64idx z)
          :: b64d rest
  | _ => []

/-- Base64 round trip on byte strings. -/
theorem b64d_b64e : ∀ bs : List Nat, (∀ x ∈ bs, x < 256) → b64d (b64e bs) = bs := by
  intro bs
  induction bs using b64e.induct with
  | case1 => intro _; rfl
  | case2 a =>
      intro h
      have ha : a < 256 := h a (by simp)
      have i1 := b64idx_b64chr (a / 4) (by omega)
      have i2 := b64idx_b64chr (a % 4 * 16) (by omega)
      have e : a / 4 * 4 + a % 4 * 16 / 16 = a := by omega
      simp [b64e, b64d, i1, i2, e]
      omega
  | case3 a b =>
      intro h
      have ha : a < 256 := h a (by simp)
      have hb : b < 256 := h b (by simp)
      have i1 := b64idx_b64chr (a / 4) (by omega)
      have i2 := b64idx_b64chr (a % 4 * 16 + b / 16) (by omega)
      have i3 := b64idx_b64chr (b % 16 * 4) (by omega)
      have hne := b64chr_ne_pad (b % 16 * 4) (by omega)
      have e1 : a / 4 * 4 + (a % 4 * 16 + b / 16) / 16 = a := by omega
      have e2 : (a % 4 * 16 + b / 16) % 16 * 16 + b % 16 * 4 / 4 = b := by omega
      simp [b64e, b64d, hne, i1, i2, i3, e1, e2]
      omega
  | case4 a b c rest ih =>
      intro h
      have ha : a < 256 := h a (by simp)
      have hb : b < 256 := h b (by simp)
      have hc : c < 256 := h c (by simp)
      have hrest := ih fun x hx => h x (by simp [hx])
      have i1 := b64idx_b64chr (a / 4) (by omega)
      have i2 := b64idx_b64chr (a % 4 * 16 + b / 16) (by omega)
      have i3 := b64idx_b64chr (b % 16 * 4 + c / 64) (by omega)
      have i4 := b64idx_b64chr (c % 64) (by omega)
      have hne3 := b64chr_ne_pad (b % 16 * 4 + c / 64) (by omega)
      have hne4 := b64chr_ne_pad (c % 64) (by omega)
      have e1 : a / 4 * 4 + (a % 4 * 16 + b / 16) / 16 = a := by omega
      have e2 : (a % 4 * 16 + b / 16) % 16 * 16 + (b % 16 * 4 + c / 64) / 4 = b := by omega
      have e3 : (b % 16 * 4 + c / 64) % 4 * 64 + c % 64 = c := by omega
      simp [b64e, b64d, hne3, hne4, i1, i2, i3, i4, e1, e2, e3, hrest]

/-- Base64 output is made of alphabet characters and padding, all bytes. -/
theorem b64e_lt : ∀ (bs : List Nat) (x : Nat), x ∈ b64e bs → x < 256 := by
  intro bs
  induction bs using b64e.induct with
  | case1 => intro x hx; simp [b64e] at hx
  | case2 a =>
      intro x hx
      simp only [b64e, List.mem_cons, List.not_mem_nil, or_false] at hx
      rcases hx with h | h | h | h <;> subst h <;> first
        | exact b64chr_lt _
        | omega
  | case3 a b =>
      intro x hx
      simp only [b64e, List.mem_cons, List.not_mem_nil, or_false] at hx
      rcases hx with h | h | h | h <;> subst h <;> first
        | exact b64chr_lt _
        | omega
  | case4 a b c rest ih =>
      intro x hx
      simp only [b64e, List.mem_cons] at hx
      rcases hx with h | h | h | h | h
      · subst h; exact b64chr_lt _
      · subst h; exact b64chr_lt _
      · subst h; exact b64chr_lt _
      · subst h; exact b64chr_lt _
      · exact ih x h

/-! ## The codec chain (`faust/serializers/codecs.py`) -/

/-- Errors the codec layer can raise. -/
inductive CErr : Type where
  | typeError : CErr
  | keyError : CErr
  | valueError : CErr
  deriving DecidableEq, Repr

/-- The three codec subclasses shipped in `faust/serializers/codecs.py`:
`json`, `raw_pickle` and `binary` (the registered `pickle` entry is
`raw_pickle() | binary()`). -/
inductive CodecKind : Type where
  | kjson : CodecKind
  | kraw_pickle : CodecKind
  | kbinary : CodecKind
  deriving DecidableEq, Repr

/-- A `Codec` instance: its own subclass and its `children` tuple. -/
inductive Codec : Type where
  | mk (kind : CodecKind) (children : List Codec) : Codec

/-- The codec's own subclass. -/
def Codec.kind : Codec → CodecKind
  | .mk k _ => k

/-- The codec's `children` tuple. -/
def Codec.children : Codec → List Codec
  | .mk _ cs => cs

/-- `Codec.nodes`: this codec followed by its children. -/
def Codec.nodes (c : Codec) : List Codec := c :: c.children

/-- `Codec.clone`: same subclass, children extended. -/
def Codec.clone (c : Codec) (extra : List Codec) : Codec :=
  Codec.mk c.kind (c.children ++ extra)

/-- `Codec.__or__`: chain two codecs, `self.clone(other)`. -/
def Codec.orC (c d : Codec) : Codec := c.clone [d]

/-- Modelled from the spec: `want_bytes` (`faust/utils/compat.py`, repository
code not under `src/`); per §6 the codec chain consumes byte strings, so a
byte string passes through and anything else is a type error. -/
def want_bytes : JVal → Except CErr (List Nat)
  | .jbytes bs => Except.ok bs
  | _ => Except.error CErr.typeError

/-- Parse bytes produced by the json leaf back into a value; trailing bytes
are an error. -/
def jsonParse (bs : List Nat) : Except CErr JVal :=
  match decV bs.length bs with
  | some (v, []) => Except.ok v
  | _ => Except.error CErr.valueError

/-- The `_dumps` of each codec subclass.  `json._dumps` and
`raw_pickle._dumps` are modelled from the spec (the leaf serializers live in
`faust/utils/json.py` and the stdlib, outside `src/`; §6 requires a pure
`encode(value) -> bytes`) as the verified self-delimiting encoding `encV`;
`binary._dumps` is `b64encode(want_bytes(s))`. -/
def leafDumps : CodecKind → JVal → Except CErr JVal
  | .kjson, v => Except.ok (.jbytes (encV v))
  | .kraw_pickle, v => Except.ok (.jbytes (encV v))
  | .kbinary, v =>
      match want_bytes v with
      | Except.ok bs => Except.ok (.jbytes (b64e bs))
      | Except.error e => Except.error e

/-- The `_loads` of each codec subclass: the json/pickle leaves decode the
self-delimiting encoding (anything that is not a byte string, or does not
parse, is an error), and `binary._loads` is `b64decode`. -/
def leafLoads : CodecKind → JVal → Except CErr JVal
  | .kjson, .jbytes bs => jsonParse bs
  | .kraw_pickle, .jbytes bs => jsonParse bs
  | .kbinary, .jbytes bs => Except.ok (.jbytes (b64d bs))
  | _, _ => Except.error CErr.typeError

/-- `Codec.dumps`: `reduce(lambda obj, e: e._dumps(obj), self.nodes, obj)` —
fold each node's own `_dumps` over the value, first node first. -/
def runDumps : List CodecKind → JVal → Except CErr JVal
  | [], v => Except.ok v
  | k :: ks, v =>
      match leafDumps k v with
      | Except.ok v2 => runDumps ks v2
      | Except.error e => Except.error e

/-- `Codec.loads`: `reduce(lambda s, d: d._loads(s), reversed(self.nodes), s)`
— fold each node's own `_loads` over the bytes, last node first. -/
def runLoads : List CodecKind → JVal → Except CErr JVal
  | [], v => Except.ok v
  | k :: ks, v =>
      match leafLoads k v with
      | Except.ok v2 => runLoads ks v2
      | Except.error e => Except.error e

/-- `Codec.dumps` over this codec's node list. -/
def Codec.dumps (c : Codec) (obj : JVal) : Except CErr JVal :=
  runDumps (c.nodes.map Codec.kind) obj

/-- `Codec.loads` over this codec's node list, reversed. -/
def Codec.loads (c : Codec) (s : JVal) : Except CErr JVal :=
  runLoads (c.nodes.map Codec.kind).reverse s

/-- The codec registry of `faust/serializers/codecs.py`:
`{'json': json(), 'pickle': pickle(), 'binary': binary()}` with
`pickle() = raw_pickle() | binary()`. -/
def codecsReg : String → Option Codec
  | "json" => some (Codec.mk .kjson [])
  | "pickle" => some (Codec.mk .kraw_pickle [Codec.mk .kbinary []])
  | "binary" => some (Codec.mk .kbinary [])
  | _ => none

/-- `name.split('|')` restricted to the single separator the source uses
(empty segments kept, as in Python). -/
def splitBarAux : List Char → List Char → List String
  | [], acc => [String.mk acc.reverse]
  | ch :: cs, acc =>
      if ch = '|' then String.mk acc.reverse :: splitBarAux cs []
      else splitBarAux cs (ch :: acc)

/-- `name.split('|')`. -/
def splitBar (s : String) : List String := splitBarAux s.data []

/-- `'|' in name`. -/
def hasBar (s : String) : Bool := s.data.contains '|'

/-- Argument to `get_codec`: a codec name or a `Codec` instance. -/
inductive CodecArg : Type where
  | name (s : String) : CodecArg
  | codec (c : Codec) : CodecArg

/-- The fold of `_reduce_node` over the remaining name segments: each segment
is looked up (`codecs[b]`, `KeyError` when missing) and chained onto the
accumulated codec with `|`. -/
def reduceNodes : Codec → List String → Except CErr Codec
  | acc, [] => Except.ok acc
  | acc, b :: rest =>
      match codecsReg b with
      | some cb => reduceNodes (Codec.orC acc cb) rest
      | none => Except.error CErr.keyError

/-- `get_codec` (`faust/serializers/codecs.py`): a codec instance passes
through; a name containing `|` is split and the registered codecs are OR-ed
together (an unregistered first segment stays a string, whose `|` with a
codec is a type error); a plain name is looked up in the registry. -/
def get_codec : CodecArg → Except CErr Codec
  | .codec c => Except.ok c
  | .name s =>
      if hasBar s then
        match splitBar s with
        | [] => Except.error CErr.keyError
        | n0 :: rest =>
            match codecsReg n0 with
            | some c0 => reduceNodes c0 rest
            | none => Except.error CErr.typeError
      else
        match codecsReg s with
        | some c => Except.ok c
        | none => Except.error CErr.keyError

/-- Argument to the module-level `dumps`/`loads`: `Union[CodecT, str, None]`.
Python truthiness makes `None` and the empty string falsy. -/
inductive CodecArgOpt : Type where
  | none : CodecArgOpt
  | name (s : String) : CodecArgOpt
  | codec (c : Codec) : CodecArgOpt

/-- Module-level `dumps` (`faust/serializers/codecs.py`):
`get_codec(codec).dumps(obj) if codec else obj`. -/
def dumpsM (codec : CodecArgOpt) (obj : JVal) : Except CErr JVal :=
  match codec with
  | .none => Except.ok obj
  | .name s =>
      if s = "" then Except.ok obj
      else
        match get_codec (.name s) with
        | Except.ok c => c.dumps obj
        | Except.error e => Except.error e
  | .codec c =>
      match get_codec (.codec c) with
      | Except.ok c2 => c2.dumps obj
      | Except.error e => Except.error e

/-- Module-level `loads` (`faust/serializers/codecs.py`):
`get_codec(codec).loads(s) if codec else s`. -/
def loadsM (codec : CodecArgOpt) (s : JVal) : Except CErr JVal :=
  match codec with
  | .none => Except.ok s
  | .name n =>
      if n = "" then Except.ok s
      else
        match get_codec (.name n) with
        | Except.ok c => c.loads s
        | Except.error e => Except.error e
  | .codec c =>
      match get_codec (.codec c) with
      | Except.ok c2 => c2.loads s
      | Except.error e => Except.error e

/-- Each codec stage's `_loads` inverts its `_dumps` on representable values,
and `_dumps` outputs stay representable. -/
theorem leaf_inversion :
    ∀ (k : CodecKind) (v w : JVal), JVal.wfB v = true →
      leafDumps k v = Except.ok w →
        leafLoads k w = Except.ok v ∧ JVal.wfB w = true := by
  intro k v w hwf h
  cases k with
  | kjson =>
      simp only [leafDumps, Except.ok.injEq] at h
      subst h
      constructor
      · simp [leafLoads, jsonParse, decV_encV]
      · simp only [JVal.wfB, List.all_eq_true, decide_eq_true_eq]
        intro x hx
        exact encV_lt v x hx
  | kraw_pickle =>
      simp only [leafDumps, Except.ok.injEq] at h
      subst h
      constructor
      · simp [leafLoads, jsonParse, decV_encV]
      · simp only [JVal.wfB, List.all_eq_true, decide_eq_true_eq]
        intro x hx
        exact encV_lt v x hx
  | kbinary =>
      cases v with
      | jbytes bs =>
          simp only [leafDumps, want_bytes, Except.ok.injEq] at h
          subst h
          have hbs : ∀ x ∈ bs, x < 256 := by
            simpa only [JVal.wfB, List.all_eq_true, decide_eq_true_eq] using hwf
          constructor
          · simp [leafLoads, b64d_b64e bs hbs]
          · simp only [JVal.wfB, List.all_eq_true, decide_eq_true_eq]
            intro x hx
            exact b64e_lt bs x hx
      | jnull => simp [leafDumps, want_bytes] at h
      | jbool b => simp [leafDumps, want_bytes] at h
      | jint n => simp [leafDumps, want_bytes] at h
      | jstr s => simp [leafDumps, want_bytes] at h
      | jarr xs => simp [leafDumps, want_bytes] at h
      | jobj kvs => simp [leafDumps, want_bytes] at h

theorem runLoads_append (xs ys : List CodecKind) :
    ∀ (s m : JVal), runLoads xs s = Except.ok m →
      runLoads (xs ++ ys) s = runLoads ys m := by
  induction xs with
  | nil =>
      intro s m h
      simp only [runLoads, Except.ok.injEq] at h
      subst h
      rfl
  | cons k xs ih =>
      intro s m h
      cases hk : leafLoads k s with
      | ok v =>
          simp only [runLoads, hk] at h
          simp only [List.cons_append, runLoads, hk]
          exact ih v m h
      | error e => simp [runLoads, hk] at h

/-- The chained codec round trip: `loads` applies the stages' `_loads` in
reverse of the order `dumps` applied their `_dumps`, so a successful encode
decodes back to the original value. -/
theorem chain_roundtrip (ks : List CodecKind) :
    ∀ (v b : JVal), JVal.wfB v = true → runDumps ks v = Except.ok b →
      runLoads ks.reverse b = Except.ok v ∧ JVal.wfB b = true := by
  induction ks with
  | nil =>
      intro v b hwf h
      simp only [runDumps, Except.ok.injEq] at h
      subst h
      exact ⟨rfl, hwf⟩
  | cons k ks ih =>
      intro v b hwf h
      cases hk : leafDumps k v with
      | error e => simp [runDumps, hk] at h
      | ok v1 =>
          simp only [runDumps, hk] at h
          obtain ⟨hinv, hwf1⟩ := leaf_inversion k v v1 hwf hk
          obtain ⟨hrec, hwfb⟩ := ih v1 b hwf1 h
          refine ⟨?_, hwfb⟩
          rw [show (k :: ks).reverse = ks.reverse ++ [k] by simp]
          rw [runLoads_append ks.reverse [k] b v1 hrec]
          simp [runLoads, hinv]

/-- C8: for every value a codec's stages accept (a representable dynamic
value), encoding with any codec built from the registry via `get_codec` —
including chained codecs, whose `loads` applies the stages' `_loads` in
reverse of the order `dumps` applied their `_dumps` — and decoding the result
yields the original value. -/
theorem codec_dumps_loads_roundtrip :
    ∀ (arg : CodecArg) (c : Codec) (obj b : JVal),
      get_codec arg = Except.ok c → JVal.wfB obj = true →
        Codec.dumps c obj = Except.ok b → Codec.loads c b = Except.ok obj := by
  intro arg c obj b _ hwf hd
  exact (chain_roundtrip (c.nodes.map Codec.kind) obj b hwf hd).1

/-- A request-envelope-shaped object (namespace, value, reply_to,
correlation_id fields). -/
def sampleEnvelope : JVal :=
  .jobj (.cons "namespace" (.jstr "ns")
    (.cons "value" (.jint 42)
      (.cons "reply_to" (.jstr "R")
        (.cons "correlation_id" (.jstr "c1") .nil))))

/-- The chained codec `get_codec` builds for the name `"json|binary"`. -/
def sampleCodec : Codec := Codec.mk .kjson [Codec.mk .kbinary []]

/-- The bytes `sampleCodec` produces for `sampleEnvelope`. -/
def sampleEncoded : JVal :=
  match Codec.dumps sampleCodec sampleEnvelope with
  | Except.ok b => b
  | Except.error _ => .jnull

/-- Witness for C8: the chained registry codec `"json|binary"` encodes a
concrete envelope and decodes it back, field for field. -/
theorem codec_dumps_loads_roundtrip_witness :
    get_codec (CodecArg.name "json|binary") = Except.ok sampleCodec
    ∧ JVal.wfB sampleEnvelope = true
    ∧ Codec.dumps sampleCodec sampleEnvelope = Except.ok sampleEncoded
    ∧ Codec.loads sampleCodec sampleEncoded = Except.ok sampleEnvelope :=
  ⟨rfl, rfl, rfl,
    codec_dumps_loads_roundtrip (CodecArg.name "json|binary") sampleCodec
      sampleEnvelope sampleEncoded rfl rfl rfl⟩

/-- C10: the module-level `dumps(codec, obj)` and `loads(codec, s)` are the
identity when no codec is given (`codec is None`): the object and the bytes
pass through unchanged. -/
theorem module_dumps_loads_none_identity :
    ∀ (obj s : JVal),
      dumpsM CodecArgOpt.none obj = Except.ok obj
      ∧ loadsM CodecArgOpt.none s = Except.ok s := by
  intro obj s
  exact ⟨rfl, rfl⟩

end Faust
